import Mathlib

/-!
# Verification of the transcript-segmentation and chunking pipeline

A shallow embedding of `scripts/ingest_transcripts.py` (turn parser, PII
scanner, section labeler, chunk assembler) together with theorems settling
the frozen claims about it.

Modelling conventions:
* Python strings are Lean `String`s and line streams are `List String`
  (the result of `str.splitlines()`, whose elements never contain `'\n'`;
  the code's `raw_line.rstrip("\n")` is therefore the identity and is not
  modelled separately).
* The character classes of Python's `re` module (`\s`, `\d`, `\w`, and the
  literal classes of the email/phone patterns) are modelled over ASCII,
  which is the alphabet all claims and transcripts use.
* The two timestamp regexes, the ellipsis regex and the email/phone
  regexes are compiled by hand into deterministic matchers that reproduce
  the leftmost/greedy/lazy backtracking behaviour of `re.match`,
  `re.finditer` and `re.sub` on the specific patterns of the source.
* Machine integers are `Nat`/`Int`; timestamps and word counts are `Nat`,
  the configured `target_words`/`overlap_turns` are `Int` (Python ints may
  be zero or negative).
-/

/-! ## Character classes (ASCII models of Python's regex classes) -/

/-- Python `\s` (ASCII part): space, tab, newline, carriage return,
vertical tab, form feed. -/
def isSpaceC (c : Char) : Bool :=
  c == ' ' || c == '\t' || c == '\n' || c == '\r' || c == '\x0b' || c == '\x0c'

/-- Python `\w` (ASCII part): letters, digits, underscore. -/
def isWordC (c : Char) : Bool :=
  c.isAlphanum || c == '_'

/-- The email local-part class `[A-Z0-9._%+-]` with `re.IGNORECASE`. -/
def isLocalC (c : Char) : Bool :=
  c.isAlphanum || c == '.' || c == '_' || c == '%' || c == '+' || c == '-'

/-- The email domain class `[A-Z0-9.-]` with `re.IGNORECASE`. -/
def isDomainC (c : Char) : Bool :=
  c.isAlphanum || c == '.' || c == '-'

/-- The email top-level-domain class `[A-Z]` with `re.IGNORECASE`. -/
def isTldC (c : Char) : Bool :=
  c.isAlpha

/-- The phone body class `[\d\s().-]`. -/
def isPhoneC (c : Char) : Bool :=
  c.isDigit || isSpaceC c || c == '(' || c == ')' || c == '.' || c == '-'

/-- Numeric value of an ASCII digit. -/
def digitVal (c : Char) : Nat := c.toNat - 48

/-! ## Python string helpers -/

/-- Python `str.strip()` (ASCII whitespace). -/
def pyStrip (s : String) : String :=
  String.mk (((s.data.dropWhile isSpaceC).reverse.dropWhile isSpaceC).reverse)

/-- Does the string end with a newline character (`str.endswith("\n")`)? -/
def endsWithNl (s : String) : Bool :=
  s.data.getLast? == some '\n'

/-- Python `str.lower()` (ASCII case folding). -/
def pyLower (s : String) : String :=
  String.mk (s.data.map Char.toLower)

/-- Is `pat` a prefix of `cs`? -/
def listStartsWith : List Char → List Char → Bool
  | [], _ => true
  | _ :: _, [] => false
  | p :: ps, c :: cs => p == c && listStartsWith ps cs

/-- Is `pat` a contiguous sublist of `cs`? -/
def listContains (pat : List Char) : List Char → Bool
  | [] => pat.isEmpty
  | c :: rest => listStartsWith pat (c :: rest) || listContains pat rest

/-- `pat in hay` for Python strings: substring containment. -/
def containsSub (hay pat : String) : Bool :=
  listContains pat.data hay.data

/-- Number of maximal runs of characters satisfying `p`; the inner `Bool`
tracks whether the previous character was inside a run. -/
def countRunsGo (p : Char → Bool) : Bool → List Char → Nat
  | _, [] => 0
  | inRun, c :: rest =>
    if p c then
      (if inRun then 0 else 1) + countRunsGo p true rest
    else countRunsGo p false rest

/-- `len(re.findall(r"\w+", s))`: the number of word-like tokens of `s`. -/
def wordCount (s : String) : Nat :=
  countRunsGo isWordC false s.data

/-- `ELLIPSIS_LINE = re.compile(r'^\s*\.\.\.\s*$')`: `.match` succeeds
exactly when the string is `"..."` surrounded by whitespace only. -/
def ellipsisMatch (s : String) : Bool :=
  pyStrip s == "..."

/-- Python `f"{n:06d}"` for a natural number. -/
def pad6 (n : Nat) : String :=
  let s := toString n
  String.mk (List.replicate (6 - s.length) '0') ++ s

/-! ## PII scanner (`EMAIL_RE`, `PHONE_RE`, `detect_pii`, `redact_pii`)

`EMAIL_RE = \b[A-Z0-9._%+-]+@[A-Z0-9.-]+\.[A-Z]{2,}\b` (IGNORECASE) and
`PHONE_RE = (\+?\d[\d\s().-]{7,}\d)`.  Both are compiled into deterministic
matchers:

* `+` after a character class is greedy, so the local part and the domain
  are the maximal class runs starting at the current position (backtracking
  cannot shorten them because the following literal `@`, `.` or `(` is not
  a member of the class);
* the literal `.` before the TLD backtracks over the dots of the maximal
  domain run from the rightmost dot leftwards;
* `[A-Z]{2,}` is greedy and shrinking it never helps the trailing `\b`
  (the next character would be a letter, i.e. a word character), so only
  the maximal letter run is tried per dot;
* in `PHONE_RE`, `[\d\s().-]{7,}` is greedy followed by a final `\d`, so a
  match extends to the last digit at offset `≥ 8` of the maximal class run.
-/

/-- One `{type, value}` entry of `detect_pii`. -/
structure PiiFlag where
  type : String
  value : String
deriving DecidableEq, Repr

/-- Python `\b` at a match start: the word-ness of the previous character
(`none` at the start of the string) differs from that of the current one. -/
def wordBoundaryOk (prev : Option Char) (c : Char) : Bool :=
  (match prev with
   | none => false
   | some p => isWordC p) != isWordC c

/-- All splits `dom = pre ++ '.' :: suf` with `pre ≠ []`, from the leftmost
dot to the rightmost. -/
def dotSplitCandidates (pre : List Char) : List Char → List (List Char × List Char)
  | [] => []
  | c :: rest =>
    (if c == '.' && !pre.isEmpty then [(pre, rest)] else []) ++
      dotSplitCandidates (pre ++ [c]) rest

/-- Resolve `[A-Z0-9.-]+\.[A-Z]{2,}\b` inside the maximal domain run `dom`
followed by `rest3` (the text after the run).  Greedy `+` prefers the
rightmost dot, hence the last successful candidate wins.  Returns
`(domain, tld, remainder)`. -/
def emailDomainSplit (dom rest3 : List Char) : Option (List Char × List Char × List Char) :=
  (dotSplitCandidates [] dom).foldl
    (fun acc (p : List Char × List Char) =>
      let tld := p.2.takeWhile isTldC
      let tRest := p.2.dropWhile isTldC
      let bOk :=
        match (tRest ++ rest3).head? with
        | none => true
        | some c => !isWordC c
      if decide (2 ≤ tld.length) && bOk then some (p.1, tld, tRest ++ rest3) else acc)
    none

/-- Try `EMAIL_RE` at the start of `cs` (`prev` is the character before
`cs`, for `\b`).  On success returns `(matched, remainder)`. -/
def emailMatchAt (prev : Option Char) (cs : List Char) : Option (List Char × List Char) :=
  let lp := cs.takeWhile isLocalC
  let rest1 := cs.dropWhile isLocalC
  match lp.head? with
  | none => none
  | some c0 =>
    if wordBoundaryOk prev c0 then
      match rest1 with
      | '@' :: rest2 =>
        let dom := rest2.takeWhile isDomainC
        let rest3 := rest2.dropWhile isDomainC
        match emailDomainSplit dom rest3 with
        | some (d, tld, remainder) => some (lp ++ '@' :: (d ++ '.' :: tld), remainder)
        | none => none
      | _ => none
    else none

/-- Largest offset `j` of the maximal phone-class run with `7 ≤ j` and a
digit at `j` (the greedy `{7,}` middle followed by the final `\d`). -/
def lastDigitIdx (run : List Char) : Option Nat :=
  ((run.enum.filter (fun p => decide (7 ≤ p.1) && p.2.isDigit)).getLast?).map (·.1)

/-- The part of `PHONE_RE` after the optional `+`: `\d[\d\s().-]{7,}\d`.
`pre` is the already-matched prefix (`['+']` or `[]`). -/
def phoneMatchBody (pre : List Char) (cs : List Char) : Option (List Char × List Char) :=
  match cs with
  | [] => none
  | d :: rest =>
    if d.isDigit then
      let run := rest.takeWhile isPhoneC
      let after := rest.dropWhile isPhoneC
      match lastDigitIdx run with
      | some j => some (pre ++ d :: run.take (j + 1), run.drop (j + 1) ++ after)
      | none => none
    else none

/-- Try `PHONE_RE` at the start of `cs`.  A leading `+` must be followed by
a digit (backtracking over `\+?` cannot succeed otherwise, since `+` is not
a digit). -/
def phoneMatchAt (cs : List Char) : Option (List Char × List Char) :=
  match cs with
  | '+' :: rest => phoneMatchBody ['+'] rest
  | _ => phoneMatchBody [] cs

/-! `re.finditer` / `re.sub` scan left to right, restarting one character
further on failure and directly after the match on success.  The scanners
below take a fuel argument; every step consumes at least one character of
the input (a match is nonempty), so `length + 1` fuel is always enough. -/

/-- The values of `EMAIL_RE.finditer`. -/
def emailScanGo : Nat → Option Char → List Char → List (List Char)
  | 0, _, _ => []
  | fuel + 1, prev, cs =>
    match cs with
    | [] => []
    | c :: rest =>
      match emailMatchAt prev (c :: rest) with
      | some (m, r) => m :: emailScanGo fuel m.getLast? r
      | none => emailScanGo fuel (some c) rest

/-- `EMAIL_RE.sub("[REDACTED_EMAIL]", ·)`. -/
def emailSubGo : Nat → Option Char → List Char → List Char
  | 0, _, cs => cs
  | fuel + 1, prev, cs =>
    match cs with
    | [] => []
    | c :: rest =>
      match emailMatchAt prev (c :: rest) with
      | some (m, r) => "[REDACTED_EMAIL]".data ++ emailSubGo fuel m.getLast? r
      | none => c :: emailSubGo fuel (some c) rest

/-- The values of `PHONE_RE.finditer`. -/
def phoneScanGo : Nat → List Char → List (List Char)
  | 0, _ => []
  | fuel + 1, cs =>
    match cs with
    | [] => []
    | c :: rest =>
      match phoneMatchAt (c :: rest) with
      | some (m, r) => m :: phoneScanGo fuel r
      | none => phoneScanGo fuel rest

/-- Number of digits of a candidate (`sum(c.isdigit() for c in val)`). -/
def digitCount (cs : List Char) : Nat :=
  (cs.filter (·.isDigit)).length

/-- `PHONE_RE.sub(_phone_sub, ·)`: a match is replaced only when it has at
least 10 digits, otherwise it is kept verbatim. -/
def phoneSubGo : Nat → List Char → List Char
  | 0, cs => cs
  | fuel + 1, cs =>
    match cs with
    | [] => []
    | c :: rest =>
      match phoneMatchAt (c :: rest) with
      | some (m, r) =>
        (if 10 ≤ digitCount m then "[REDACTED_PHONE]".data else m) ++ phoneSubGo fuel r
      | none => c :: phoneSubGo fuel rest

/-- `detect_pii`: all email matches, then all phone matches with at least
10 digits, in scan order. -/
def detect_pii (text : String) : List PiiFlag :=
  (emailScanGo (text.data.length + 1) none text.data).map
      (fun m => { type := "email", value := String.mk m }) ++
    ((phoneScanGo (text.data.length + 1) text.data).filter
        (fun m => decide (10 ≤ digitCount m))).map
      (fun m => { type := "phone", value := String.mk m })

/-- `redact_pii`: substitute emails first, then phones. -/
def redact_pii (text : String) : String :=
  let t1 := emailSubGo (text.data.length + 1) none text.data
  String.mk (phoneSubGo (t1.length + 1) t1)

/-! ## Timestamp line classifier (`RE_SPEAKER_TS`, `RE_TS_ONLY`)

`RE_SPEAKER_TS = ^\s*(?P<speaker>.+?)\s*\((?P<h>\d{1,2}):(?P<m>\d{2}):(?P<s>\d{2})\)\s*:\s*(?P<rest>.*)\s*$`
`RE_TS_ONLY    = ^\s*\((?P<h>\d{1,2}):(?P<m>\d{2}):(?P<s>\d{2})\)\s*:\s*(?P<rest>.*)\s*$`

On a line without `'\n'` these backtrack deterministically:
* after `)` the greedy `\s*` must be the maximal whitespace run (a shorter
  run would put a whitespace character where the literal `:` is required);
  the greedy `(?P<rest>.*)` then captures everything after the maximal
  whitespace run following that colon;
* `\d{1,2}` takes two digits when two are available (the one-digit
  alternative would require the second digit to be `:`), otherwise one;
* the lazy `.+?` speaker grows from one character upwards, so the capture
  uses the smallest end position whose tail matches; only when every such
  position fails does the greedy leading `\s*` give back characters, which
  succeeds exactly when the line has leading whitespace directly followed
  by a timestamp match — the speaker group is then the last leading
  whitespace character. -/

/-- The captures of a timestamp-line match. -/
structure TsCapture where
  h : Nat
  m : Nat
  s : Nat
  rest : String
deriving DecidableEq, Repr

/-- Parse `\d{1,2}` followed by material that starts with a literal `:`
(so two digits are taken when possible). -/
def parseHour : List Char → Option (Nat × List Char)
  | a :: b :: rest =>
    if a.isDigit then
      if b.isDigit then some (10 * digitVal a + digitVal b, rest)
      else some (digitVal a, b :: rest)
    else none
  | [a] => if a.isDigit then some (digitVal a, []) else none
  | [] => none

/-- Parse `\d{2}`. -/
def parse2Digits : List Char → Option (Nat × List Char)
  | a :: b :: rest =>
    if a.isDigit && b.isDigit then some (10 * digitVal a + digitVal b, rest) else none
  | _ => none

/-- Match `\((h):(mm):(ss)\)\s*:\s*(rest)$` at the start of `cs`. -/
def tsTail (cs : List Char) : Option TsCapture :=
  match cs with
  | '(' :: cs1 =>
    match parseHour cs1 with
    | some (h, cs2) =>
      match cs2 with
      | ':' :: cs3 =>
        match parse2Digits cs3 with
        | some (m, cs4) =>
          match cs4 with
          | ':' :: cs5 =>
            match parse2Digits cs5 with
            | some (s, cs6) =>
              match cs6 with
              | ')' :: cs7 =>
                match cs7.dropWhile isSpaceC with
                | ':' :: cs8 => some ⟨h, m, s, String.mk (cs8.dropWhile isSpaceC)⟩
                | _ => none
              | _ => none
            | none => none
          | _ => none
        | none => none
      | _ => none
    | none => none
  | _ => none

/-- Grow the lazy speaker group one character at a time; succeed at the
first position whose tail (after greedy `\s*`) is a timestamp match. -/
def speakerScan (spk : List Char) : List Char → Option (List Char × TsCapture)
  | [] => none
  | c :: rest =>
    match tsTail ((c :: rest).dropWhile isSpaceC) with
    | some cap => some (spk, cap)
    | none => speakerScan (spk ++ [c]) rest

/-- `RE_SPEAKER_TS.match(line)`: the raw speaker group and the captures. -/
def matchSpeakerTs (line : String) : Option (String × TsCapture) :=
  let cs := line.data
  let ws := cs.takeWhile isSpaceC
  let body := cs.dropWhile isSpaceC
  match body with
  | [] => none
  | c :: rest =>
    match speakerScan [c] rest with
    | some (spk, cap) => some (String.mk spk, cap)
    | none =>
      match ws.getLast? with
      | some w =>
        match tsTail body with
        | some cap => some (String.mk [w], cap)
        | none => none
      | none => none

/-- `RE_TS_ONLY.match(line)`. -/
def matchTsOnly (line : String) : Option TsCapture :=
  tsTail (line.data.dropWhile isSpaceC)

/-- `ts_to_seconds`. -/
def ts_to_seconds (h m s : Nat) : Nat :=
  h * 3600 + m * 60 + s

/-! ## Data model and turn parser (`Turn`, `parse_transcript`) -/

/-- The `Turn` dataclass. -/
structure Turn where
  speaker : Option String
  t : Nat
  text : String
  section_type : String := "unknown"
  is_elided : Bool := false
  pii_flags : Option (List PiiFlag) := none
deriving DecidableEq, Repr

/-- The dataclass defaults, used where Python would raise `IndexError`
(never reached on the inputs the pipeline produces). -/
def defaultTurn : Turn :=
  { speaker := none, t := 0, text := "" }

instance : Inhabited Turn := ⟨defaultTurn⟩

/-- Flush the current turn: strip its text and append it. -/
def flushCur (turns : List Turn) (cur : Option Turn) : List Turn :=
  match cur with
  | some c => turns ++ [{ c with text := pyStrip c.text }]
  | none => turns

/-- Build the turn for a freshly matched timestamp line: the stripped
remainder is checked for elision before redaction, redacted when requested
and non-empty, and scanned for PII afterwards. -/
def newTurn (spk : Option String) (cap : TsCapture) (redact : Bool) : Turn :=
  let rest := pyStrip cap.rest
  let elided := ellipsisMatch rest || rest == ""
  let rest2 := if redact && rest ≠ "" then redact_pii rest else rest
  let flags :=
    if rest2 ≠ "" then
      let fs := detect_pii rest2
      if fs ≠ [] then some fs else none
    else none
  { speaker := spk, t := ts_to_seconds cap.h cap.m cap.s, text := rest2,
    is_elided := elided, pii_flags := flags }

/-- One iteration of the line loop of `parse_transcript`.  The state is
`(turns, cur)`: the flushed turns and the turn under construction. -/
def parseStep (redact : Bool) (st : List Turn × Option Turn) (line : String) :
    List Turn × Option Turn :=
  let turns := st.1
  let cur := st.2
  if pyStrip line == "" then
    -- blank line: keep paragraph breaks inside a turn
    match cur with
    | some c =>
      if c.text ≠ "" && !endsWithNl c.text then (turns, some { c with text := c.text ++ "\n" })
      else (turns, cur)
    | none => (turns, cur)
  else
    match matchSpeakerTs line with
    | some (spkRaw, cap) => (flushCur turns cur, some (newTurn (some (pyStrip spkRaw)) cap redact))
    | none =>
      match matchTsOnly line with
      | some cap => (flushCur turns cur, some (newTurn none cap redact))
      | none =>
        -- continuation line
        let c0 := cur.getD { speaker := none, t := 0, text := "" }
        let cont := pyStrip line
        let cont2 := if redact && cont ≠ "" then redact_pii cont else cont
        let text' :=
          if c0.text ≠ "" && !endsWithNl c0.text then c0.text ++ " " ++ cont2
          else c0.text ++ cont2
        let elided' := if cont2 ≠ "" && !ellipsisMatch cont2 then false else c0.is_elided
        let flags' :=
          if cont2 ≠ "" then
            let fs := detect_pii cont2
            if fs ≠ [] then some (c0.pii_flags.getD [] ++ fs) else c0.pii_flags
          else c0.pii_flags
        (turns, some { c0 with text := text', is_elided := elided', pii_flags := flags' })

/-- `parse_transcript` over the lines of the file. -/
def parse_transcript (lines : List String) (redact : Bool) : List Turn :=
  let st := lines.foldl (parseStep redact) ([], none)
  flushCur st.1 st.2

/-! ## Section labeler (`label_sections`) -/

/-- `SPONSOR_START`. -/
def SPONSOR_START : List String :=
  ["this episode is brought to you by", "sponsored by", "our sponsor",
   "support this podcast", "thanks to our sponsor"]

/-- `SPONSOR_TRANSITION`. -/
def SPONSOR_TRANSITION : List String :=
  ["and so with that", "with that", "let\x27s get into", "now, my guest",
   "here\x27s my conversation", "okay, let\x27s start", "let\x27s start",
   "today\x27s guest", "i bring you"]

/-- `OUTRO_MARKERS`. -/
def OUTRO_MARKERS : List String :=
  ["thank you so much for listening", "thanks so much for listening",
   "if you enjoyed this episode", "please subscribe", "see you next time",
   "leave a review"]

/-- The mutable state of the labeling pass.  `processed` is the prefix of
the turn list already labeled in place (the loop reads it back through
`turns[:i]` when deciding between `intro` and `conversation`). -/
structure LabelState where
  sponsor_mode : Bool
  sponsor_start_t : Option Nat
  outro_mode : Bool
  processed : List Turn

/-- One iteration of the labeling loop, evaluated top to bottom exactly as
in the source. -/
def labelStep (st : LabelState) (tr : Turn) : LabelState :=
  let textL := pyLower tr.text
  if st.outro_mode then
    { st with processed := st.processed ++ [{ tr with section_type := "outro" }] }
  else if OUTRO_MARKERS.any (fun k => containsSub textL k) then
    { st with outro_mode := true,
              processed := st.processed ++ [{ tr with section_type := "outro" }] }
  else if !st.sponsor_mode && SPONSOR_START.any (fun k => containsSub textL k) then
    { st with sponsor_mode := true, sponsor_start_t := some tr.t,
              processed := st.processed ++ [{ tr with section_type := "sponsor" }] }
  else if st.sponsor_mode then
    if SPONSOR_TRANSITION.any (fun k => containsSub textL k) then
      { st with sponsor_mode := false, sponsor_start_t := none,
                processed := st.processed ++ [{ tr with section_type := "conversation" }] }
    else if (match st.sponsor_start_t with
             | some t0 => decide ((tr.t : Int) - (t0 : Int) > 8 * 60)
             | none => false) then
      { st with sponsor_mode := false, sponsor_start_t := none,
                processed := st.processed ++ [{ tr with section_type := "conversation" }] }
    else
      { st with processed := st.processed ++ [{ tr with section_type := "sponsor" }] }
  else if st.processed.isEmpty then
    { st with processed := st.processed ++ [{ tr with section_type := "intro" }] }
  else if st.processed.any (fun t => t.section_type == "sponsor") then
    { st with processed := st.processed ++ [{ tr with section_type := "conversation" }] }
  else
    { st with processed := st.processed ++ [{ tr with section_type := "intro" }] }

/-- `label_sections`, as a pure function returning the relabeled list. -/
def label_sections (turns : List Turn) : List Turn :=
  (turns.foldl labelStep
    { sponsor_mode := false, sponsor_start_t := none, outro_mode := false,
      processed := [] }).processed

/-! ## Chunk assembler (`make_chunks`) -/

/-- A chunk record.  `chunk_id`, `t_start`, `t_end`, `speakers`, `text`
mirror the emitted dict; `start_i` and `n_turns` are ghost fields that
record the source's loop variables (`start_i`, and `i - start_i` after the
inner loop) so index properties can be stated — they carry no information
that is not determined by the loop trace. -/
structure Chunk where
  chunk_id : Nat
  t_start : Nat
  t_end : Nat
  speakers : List String
  text : String
  start_i : Nat
  n_turns : Nat
deriving DecidableEq, Repr

instance : Inhabited Chunk :=
  ⟨{ chunk_id := 0, t_start := 0, t_end := 0, speakers := [], text := "",
     start_i := 0, n_turns := 0 }⟩

/-- Python list indexing with negative wrap-around (`usable[end_i]` is
evaluated with `end_i = -1` when a chunk consumed no turns). -/
def pyIdxT (l : List Turn) (k : Int) : Turn :=
  if k < 0 then l.getD (l.length - (-k).toNat) defaultTurn
  else l.getD k.toNat defaultTurn

/-- The filter producing `usable` from the labeled turns. -/
def usableTurns (turns : List Turn) (include_intro : Bool) : List Turn :=
  turns.filter (fun t =>
    (t.section_type == "conversation" || (include_intro && t.section_type == "intro")) &&
      !(pyStrip t.text == "") && !t.is_elided && !ellipsisMatch (pyStrip t.text))

/-- `f"{spk} ({t.t:06d}s): {t.text}"`. -/
def renderTurnLine (spk : String) (t : Turn) : String :=
  spk ++ " (" ++ pad6 t.t ++ "s): " ++ t.text

/-- String comparison used by Python's `sorted` (code-point lexicographic). -/
def strLeB (a b : String) : Bool :=
  !decide (b < a)

/-- `sorted(set)` over the collected speaker labels. -/
def sortStrings (l : List String) : List String :=
  l.mergeSort strLeB

/-- The inner packing loop over the remaining usable turns
(`while i < len(usable) and words < target_words`).  Returns the number of
turns consumed, the final word count, the buffer lines and the (insertion
ordered, duplicate free) speaker set. -/
def packLoop (target : Int) : List Turn → Nat → List String → List String →
    Nat × Nat × List String × List String
  | [], words, buf, spkrs => (0, words, buf, spkrs)
  | t :: rest, words, buf, spkrs =>
    if (words : Int) < target then
      let spk := pyStrip (t.speaker.getD "Narration")
      let spkrs' := if spkrs.contains spk then spkrs else spkrs ++ [spk]
      let out := packLoop target rest (words + wordCount t.text) (buf ++ [renderTurnLine spk t]) spkrs'
      (out.1 + 1, out.2)
    else (0, words, buf, spkrs)

/-- The chunk emitted by the iteration that starts at index `i`. -/
def chunkAt (usable : List Turn) (target : Int) (i cid : Nat) : Chunk :=
  let out := packLoop target (usable.drop i) 0 [] []
  let n := out.1
  { chunk_id := cid
    t_start := (usable.getD i defaultTurn).t
    t_end := (pyIdxT usable ((i : Int) + (n : Int) - 1)).t
    speakers := sortStrings out.2.2.2
    text := pyStrip (String.intercalate "\n" out.2.2.1)
    start_i := i
    n_turns := n }

/-- The outer chunking loop.  The `fuel` argument makes the recursion
structural; the wrapper passes `usable.length`, which is enough whenever
every iteration advances the index (`none` models the loop that never
reaches the end of the sequence). -/
def makeChunksLoop (usable : List Turn) (target overlap : Int) :
    Nat → Nat → Nat → Option (List Chunk)
  | 0, i, _ => if i < usable.length then none else some []
  | fuel + 1, i, cid =>
    if i < usable.length then
      let c := chunkAt usable target i cid
      let i2 := i + c.n_turns
      let i3 := if overlap > 0 then (max ((i2 : Int) - overlap) ((i : Int) + 1)).toNat else i2
      (makeChunksLoop usable target overlap fuel i3 (cid + 1)).map (fun cs => c :: cs)
    else some []

/-- `make_chunks`. -/
def make_chunks (turns : List Turn) (include_intro : Bool)
    (target_words overlap_turns : Int) : Option (List Chunk) :=
  let usable := usableTurns turns include_intro
  if usable.isEmpty then some []
  else makeChunksLoop usable target_words overlap_turns usable.length 0 0

/-! ## Derived notions used to state the claims -/

/-- A line that matches one of the two timestamp patterns. -/
def timestampLine (l : String) : Bool :=
  (matchSpeakerTs l).isSome || (matchTsOnly l).isSome

/-- Number of timestamp-matching lines. -/
def timestampLineCount (lines : List String) : Nat :=
  (lines.filter timestampLine).length

/-- Does the file open (first non-blank line) with a continuation line? -/
def opensWithCont (lines : List String) : Bool :=
  match lines.find? (fun l => !(pyStrip l == "")) with
  | some l => !timestampLine l
  | none => false

/-- Total number of word-like tokens over a list of turns' texts. -/
def turnsWordSum (ts : List Turn) : Nat :=
  (ts.map (fun t => wordCount t.text)).sum

/-- The text span each line contributes to the PII scan: the stripped
remainder of a timestamp line, the stripped line itself for a
continuation, nothing for a blank line. -/
def lineSegment (l : String) : Option String :=
  if pyStrip l == "" then none
  else
    match matchSpeakerTs l with
    | some (_, cap) => some (pyStrip cap.rest)
    | none =>
      match matchTsOnly l with
      | some cap => some (pyStrip cap.rest)
      | none => some (pyStrip l)

/-- Positional monotonicity of the `outro` label in a turn list. -/
def OutroMono (l : List Turn) : Prop :=
  ∀ i j : Nat, i < j → j < l.length →
    (l.getD i defaultTurn).section_type = "outro" →
    (l.getD j defaultTurn).section_type = "outro"

/-- A flag is recorded somewhere in the parser state. -/
def stateFlagged (st : List Turn × Option Turn) (fl : PiiFlag) : Prop :=
  (∃ t ∈ st.1, fl ∈ t.pii_flags.getD []) ∨
    (∃ c, st.2 = some c ∧ fl ∈ c.pii_flags.getD [])

/-- The `has_pii` episode flag (`any(t.pii_flags for t in turns if t.pii_flags)`). -/
def episodeHasPii (turns : List Turn) : Bool :=
  turns.any (fun t =>
    match t.pii_flags with
    | some fs => !fs.isEmpty
    | none => false)

/-! ## Concrete fixtures used by witnesses and counterexamples -/

/-- A conversation-labeled turn, as `make_chunks` receives them. -/
def convTurn (txt : String) (t : Nat) : Turn :=
  { speaker := some "Host", t := t, text := txt, section_type := "conversation" }

/-- Four conversation turns of exactly six words each (the scenario of the
chunking claim with target 10 and overlap 1). -/
def fourSixWordTurns : List Turn :=
  [convTurn "a b c d e f" 0, convTurn "g h i j k l" 10,
   convTurn "m n o p q r" 20, convTurn "s t u v w x" 30]

/-- Two conversation turns of one word each (total word count 2). -/
def twoOneWordTurns : List Turn :=
  [convTurn "alpha" 0, convTurn "beta" 5]

/-- One conversation turn. -/
def oneConvTurn : List Turn :=
  [convTurn "alpha" 0]

/-- The single line of the ellipsis-only transcript scenario. -/
def ellipsisOnlyLine : String := "(00:00:10): ..."

/-- The input on which phone redaction exposes a fresh email match. -/
def piiExposingInput : String := "a@b.cc1234567890"

/-- A transcript line whose remainder holds a detected email twice, once
fused with a phone number: redaction replaces both detected matches yet
the same email value is detected again in the redacted text. -/
def piiRecordedLine : String := "A (00:00:01): a@b.cc1234567890 a@b.cc"

/-! ## Theorems -/

/-- An empty filtered sequence yields zero chunks, for any configuration. -/
theorem make_chunks_of_usable_nil (turns : List Turn) (ii : Bool) (tw ov : Int)
    (h : usableTurns turns ii = []) : make_chunks turns ii tw ov = some [] := by
  unfold make_chunks
  rw [h]
  rfl

/-- C9: the input `Jane Doe (00:01:05): I disagree with that.` followed by
a blank line and `and here's why.` parses to exactly one Turn with
speaker `"Jane Doe"`, `t = 65`, and the paragraph break kept as a single
newline with no space inserted after it. -/
theorem c9_paragraph_scenario :
    parse_transcript ["Jane Doe (00:01:05): I disagree with that.", "", "and here\x27s why."] false =
      [{ speaker := some "Jane Doe", t := 65, text := "I disagree with that.\nand here\x27s why.",
         section_type := "unknown", is_elided := false, pii_flags := none }] := by
  rfl

/-- C8 (failing input): on `"a@b.cc1234567890"` the redaction pass leaves
`a@b.cc` in place (the original text has no email match there because a
digit follows the TLD, so `\b` fails), replaces the ten-digit phone run,
and the resulting `"a@b.cc[REDACTED_PHONE]"` then *does* contain an email
match — `detect_pii (redact_pii s)` is not empty, contradicting the claim
that redaction output contains zero matches of the detection predicates. -/
theorem c8_failing_input :
    detect_pii (redact_pii piiExposingInput) = [{ type := "email", value := "a@b.cc" }] ∧
      detect_pii (redact_pii piiExposingInput) ≠ [] := by
  exact ⟨rfl, by decide⟩

/-- C4 (counterexample): the one-line file `(00:00:10): ...` yields a Turn
whose text is `"..."` (the code strips the remainder but keeps the
ellipsis), not the empty string the claim states. -/
theorem c4_counterexample :
    (parse_transcript [ellipsisOnlyLine] false).map Turn.text = ["..."] ∧
      ("..." : String) ≠ "" := by
  exact ⟨rfl, by decide⟩

/-- C4 (amended): the one-line file `(00:00:10): ...` parses (with or
without redaction) to exactly one Turn with no speaker, `t = 10`,
`is_elided = true` and text `"..."`, and that Turn is excluded from
chunking for every `include_intro` and every chunking configuration. -/
theorem c4_amended (redact ii : Bool) (tw ov : Int) :
    parse_transcript [ellipsisOnlyLine] redact =
        [{ speaker := none, t := 10, text := "...", section_type := "unknown",
           is_elided := true, pii_flags := none }] ∧
      make_chunks (label_sections (parse_transcript [ellipsisOnlyLine] redact)) ii tw ov =
        some [] := by
  cases redact <;> cases ii <;>
    exact ⟨rfl, make_chunks_of_usable_nil _ _ _ _ (by decide)⟩

/-- C3 (counterexample): with four six-word conversation turns, target 10
and overlap 1, the emitted chunks start at indices 0, 1, 2 *and 3* — the
rewind re-enters the loop at index 3, so the starts are not exactly
`[0, 1, 2]` as claimed. -/
theorem c3_counterexample :
    (make_chunks fourSixWordTurns false 10 1).map (fun cs => cs.map Chunk.start_i) =
        some [0, 1, 2, 3] ∧
      ([0, 1, 2, 3] : List Nat) ≠ [0, 1, 2] := by
  exact ⟨rfl, by decide⟩

/-- C3 (amended): with four six-word conversation turns, target 10 and
overlap 1, `make_chunks` emits exactly four chunks, starting at indices
0, 1, 2 and 3 of the filtered sequence. -/
theorem c3_amended :
    (make_chunks fourSixWordTurns false 10 1).map (fun cs => cs.map Chunk.start_i) =
      some [0, 1, 2, 3] := by
  rfl

/-- C1 (counterexample): two one-word conversation turns (total word count
2, below the target 100) with overlap 1 produce *two* chunks — after the
first chunk consumes the whole sequence, the overlap rewind restarts the
loop at index 1 — refuting "exactly one chunk" for this configuration. -/
theorem c1_counterexample :
    usableTurns twoOneWordTurns false ≠ [] ∧
      (turnsWordSum (usableTurns twoOneWordTurns false) : Int) < 100 ∧
      (make_chunks twoOneWordTurns false 100 1).map List.length = some 2 ∧
      (2 : Nat) ≠ 1 := by
  refine ⟨by decide, by decide, rfl, by decide⟩

/-- C10 (counterexample): parsing the line
`A (00:00:01): a@b.cc1234567890 a@b.cc` with redaction enabled records the
flag `{email, a@b.cc}` — yet `a@b.cc` is among the values `detect_pii`
finds in the original remainder, i.e. a value whose detected occurrence
redaction replaced.  (Redacting the ten-digit phone exposes the first
`a@b.cc`, whose detected second occurrence was replaced.) -/
theorem c10_counterexample :
    (parse_transcript [piiRecordedLine] true).map Turn.pii_flags =
        [some [{ type := "email", value := "a@b.cc" }]] ∧
      ({ type := "email", value := "a@b.cc" } : PiiFlag) ∈
        detect_pii "a@b.cc1234567890 a@b.cc" := by
  exact ⟨rfl, by decide⟩

/-! ### C7: number of emitted turns -/

/-- The head of a `dropWhile` result does not satisfy the predicate. -/
theorem dropWhile_head_not {α : Type} (p : α → Bool) :
    ∀ (l : List α) (c : α) (r : List α), l.dropWhile p = c :: r → p c = false := by
  intro l
  induction l with
  | nil => intro c r h; simp [List.dropWhile] at h
  | cons a as ih =>
    intro c r h
    by_cases ha : p a
    · rw [List.dropWhile_cons_of_pos ha] at h
      exact ih c r h
    · rw [List.dropWhile_cons_of_neg ha] at h
      cases h
      exact Bool.eq_false_iff.mpr ha

/-- A blank line (in the sense of `line.strip()`) is entirely whitespace
after dropping its leading whitespace, hence empty. -/
theorem dropWhile_eq_nil_of_pyStrip_eq_empty (l : String) (h : pyStrip l = "") :
    l.data.dropWhile isSpaceC = [] := by
  unfold pyStrip at h
  have h' : ((l.data.dropWhile isSpaceC).reverse.dropWhile isSpaceC).reverse = [] := by
    have := congrArg String.data h
    simpa using this
  rw [List.reverse_eq_nil_iff] at h'
  cases hd : l.data.dropWhile isSpaceC with
  | nil => rfl
  | cons c r =>
    exfalso
    have hc : isSpaceC c = false := dropWhile_head_not isSpaceC l.data c r hd
    have hall : ∀ x ∈ (c :: r).reverse, isSpaceC x := by
      rw [hd] at h'
      exact List.dropWhile_eq_nil_iff.mp h'
    have : isSpaceC c := hall c (by simp)
    rw [hc] at this
    exact Bool.noConfusion this

/-- A blank line matches neither timestamp pattern. -/
theorem timestampLine_of_blank (l : String) (h : pyStrip l = "") :
    timestampLine l = false := by
  have hd := dropWhile_eq_nil_of_pyStrip_eq_empty l h
  unfold timestampLine matchSpeakerTs matchTsOnly
  simp only [hd]
  simp [tsTail]

/-- Flushing appends exactly the pending turn, if any. -/
theorem flushCur_length (ts : List Turn) (cur : Option Turn) :
    (flushCur ts cur).length = ts.length + (if cur.isSome then 1 else 0) := by
  cases cur <;> simp [flushCur]

/-- A blank line changes neither the flushed list nor whether a turn is
pending. -/
theorem parseStep_blank (redact : Bool) (st : List Turn × Option Turn) (l : String)
    (h : pyStrip l = "") :
    (parseStep redact st l).1 = st.1 ∧ (parseStep redact st l).2.isSome = st.2.isSome := by
  unfold parseStep
  simp only [h]
  cases hc : st.2 with
  | none => simp
  | some c =>
    dsimp only
    simp only [beq_self_eq_true, if_true]
    split <;> exact ⟨rfl, rfl⟩

/-- A timestamp line flushes the pending turn and starts a new one. -/
theorem parseStep_ts (redact : Bool) (st : List Turn × Option Turn) (l : String)
    (hb : ¬ pyStrip l = "") (h : timestampLine l = true) :
    (parseStep redact st l).1.length = st.1.length + (if st.2.isSome then 1 else 0) ∧
      (parseStep redact st l).2.isSome = true := by
  unfold parseStep
  simp only [beq_iff_eq, if_neg hb]
  unfold timestampLine at h
  cases h1 : matchSpeakerTs l with
  | some v =>
    cases v with
    | mk spk cap => simpa using flushCur_length st.1 st.2
  | none =>
    cases h2 : matchTsOnly l with
    | some cap => simpa using flushCur_length st.1 st.2
    | none => rw [h1, h2] at h; simp at h

/-- A continuation line keeps the flushed list and leaves a pending turn. -/
theorem parseStep_cont (redact : Bool) (st : List Turn × Option Turn) (l : String)
    (hb : ¬ pyStrip l = "") (h1 : matchSpeakerTs l = none) (h2 : matchTsOnly l = none) :
    (parseStep redact st l).1 = st.1 ∧ (parseStep redact st l).2.isSome = true := by
  unfold parseStep
  simp only [beq_iff_eq, if_neg hb, h1, h2]
  refine ⟨?_, ?_⟩ <;> simp

/-- The counting invariant of the parsing loop: the final number of turns
(flushed plus pending) grows by one per timestamp line, plus one when no
turn was pending and the remaining lines open with a continuation. -/
theorem parse_count_invariant (redact : Bool) :
    ∀ (lines : List String) (st : List Turn × Option Turn),
      (let fin := lines.foldl (parseStep redact) st
       fin.1.length + (if fin.2.isSome then 1 else 0)) =
        st.1.length + (if st.2.isSome then 1 else 0) + timestampLineCount lines +
          (if !st.2.isSome && opensWithCont lines then 1 else 0) := by
  intro lines
  induction lines with
  | nil => intro st; simp [timestampLineCount, opensWithCont]
  | cons l rest ih =>
    intro st
    simp only [List.foldl_cons]
    by_cases hb : pyStrip l = ""
    · have hstep := parseStep_blank redact st l hb
      have hts : timestampLine l = false := timestampLine_of_blank l hb
      have hcount : timestampLineCount (l :: rest) = timestampLineCount rest := by
        simp [timestampLineCount, List.filter, hts]
      have howc : opensWithCont (l :: rest) = opensWithCont rest := by
        simp [opensWithCont, List.find?, hb]
      rw [ih (parseStep redact st l), hstep.1, hstep.2, hcount, howc]
    · have hbne : (pyStrip l == "") = false := by
        simp [hb]
      have howc : opensWithCont (l :: rest) = !timestampLine l := by
        simp [opensWithCont, List.find?, hbne]
      cases hts : timestampLine l with
      | true =>
        have hstep := parseStep_ts redact st l hb hts
        have hcount : timestampLineCount (l :: rest) = timestampLineCount rest + 1 := by
          simp [timestampLineCount, List.filter, hts]
        rw [ih (parseStep redact st l), hstep.1, hstep.2, hcount, howc, hts]
        simp
        omega
      | false =>
        have h1 : matchSpeakerTs l = none := by
          unfold timestampLine at hts
          cases h : matchSpeakerTs l with
          | none => rfl
          | some v => rw [h] at hts; simp at hts
        have h2 : matchTsOnly l = none := by
          unfold timestampLine at hts
          cases h : matchTsOnly l with
          | none => rfl
          | some v => rw [h] at hts; simp at hts
        have hstep := parseStep_cont redact st l hb h1 h2
        have hcount : timestampLineCount (l :: rest) = timestampLineCount rest := by
          simp [timestampLineCount, List.filter, hts]
        rw [ih (parseStep redact st l), hstep.1, hstep.2, hcount, howc, hts]
        cases hcur : st.2 <;> simp [hcur] <;> omega

/-- C7: for every input, the number of turns equals the number of
timestamp-matching lines, plus one exactly when the first non-blank line
of the file is a continuation line. -/
theorem c7_turn_count (lines : List String) (redact : Bool) :
    (parse_transcript lines redact).length =
      timestampLineCount lines + (if opensWithCont lines then 1 else 0) := by
  unfold parse_transcript
  have h := parse_count_invariant redact lines ([], none)
  simp only [List.length_nil, Option.isSome_none, Bool.false_eq_true, if_false,
    Nat.zero_add, Bool.not_false, Bool.true_and] at h
  rw [flushCur_length]
  exact h

/-! ### C6: the outro latch is monotone -/

/-- Each labeling step appends exactly one labeled turn; the `outro` label
and the `outro_mode` latch track each other, and the latch is never
cleared. -/
theorem labelStep_shape (st : LabelState) (tr : Turn) :
    ∃ x : Turn,
      (labelStep st tr).processed = st.processed ++ [x] ∧
      (st.outro_mode = true → x.section_type = "outro") ∧
      (st.outro_mode = true → (labelStep st tr).outro_mode = true) ∧
      (x.section_type = "outro" → (labelStep st tr).outro_mode = true) := by
  unfold labelStep
  dsimp only
  repeat' split
  all_goals refine ⟨_, rfl, ?_, ?_, ?_⟩
  all_goals intro h
  all_goals simp_all

/-- The labeling invariant: an `outro` label in the processed prefix
forces the latch, and the prefix itself is `outro`-monotone. -/
theorem label_sections_invariant (l : List Turn) :
    ∀ st : LabelState,
      ((∃ t ∈ st.processed, t.section_type = "outro") → st.outro_mode = true) →
      OutroMono st.processed →
      ((∃ t ∈ (l.foldl labelStep st).processed, t.section_type = "outro") →
          (l.foldl labelStep st).outro_mode = true) ∧
        OutroMono (l.foldl labelStep st).processed := by
  induction l with
  | nil => intro st h1 h2; exact ⟨h1, h2⟩
  | cons tr rest ih =>
    intro st h1 h2
    obtain ⟨x, hx, hmode2x, hmode, hxmode⟩ := labelStep_shape st tr
    rw [List.foldl_cons]
    apply ih (labelStep st tr)
    · -- an outro in the extended prefix forces the latch
      intro ⟨t, ht, hto⟩
      rw [hx] at ht
      rcases List.mem_append.mp ht with hmem | hmem
      · exact hmode (h1 ⟨t, hmem, hto⟩)
      · have : t = x := by simpa using hmem
        exact hxmode (this ▸ hto)
    · -- monotonicity of the extended prefix
      intro i j hij hjlen hi
      rw [hx] at hjlen hi ⊢
      rw [List.length_append, List.length_singleton] at hjlen
      have hilen : i < st.processed.length := by omega
      rw [List.getD_append _ _ _ _ hilen] at hi
      rcases Nat.lt_or_ge j st.processed.length with hjl | hjl
      · rw [List.getD_append _ _ _ _ hjl]
        exact h2 i j hij hjl hi
      · have hj' : j = st.processed.length := by omega
        rw [hj', List.getD_append_right _ _ _ _ (Nat.le_refl _), Nat.sub_self]
        have hlatch : st.outro_mode = true := by
          refine h1 ⟨st.processed.getD i defaultTurn, ?_, hi⟩
          rw [List.getD_eq_getElem _ _ hilen]
          exact List.getElem_mem hilen
        simpa using hmode2x hlatch

/-- C6: once a Turn is labeled `outro`, every later Turn of the episode is
labeled `outro` as well — the latch is never cleared and no later turn is
reclassified. -/
theorem c6_outro_monotone (turns : List Turn) (i j : Nat) (hij : i < j)
    (hj : j < (label_sections turns).length) :
    ((label_sections turns).getD i defaultTurn).section_type = "outro" →
    ((label_sections turns).getD j defaultTurn).section_type = "outro" := by
  unfold label_sections
  have h := label_sections_invariant turns
    { sponsor_mode := false, sponsor_start_t := none, outro_mode := false, processed := [] }
    (by rintro ⟨t, ht, _⟩; simp at ht) (by intro i j _ hj; simp at hj)
  exact fun hi => h.2 i j hij (by simpa [label_sections] using hj) hi

/-- Witness for C6 at a concrete episode: a turn containing the marker
`please subscribe` is labeled `outro` and so is the turn after it. -/
theorem c6_outro_monotone_witness :
    ((label_sections [convTurn "please subscribe" 0, convTurn "bye" 5]).getD 1
        defaultTurn).section_type = "outro" :=
  c6_outro_monotone [convTurn "please subscribe" 0, convTurn "bye" 5] 0 1
    (by decide) (by decide) (by decide)

/-! ### Packing-loop lemmas (C1, C2, C5) -/

/-- `turnsWordSum` over `cons`. -/
theorem turnsWordSum_cons (t : Turn) (ts : List Turn) :
    turnsWordSum (t :: ts) = wordCount t.text + turnsWordSum ts := by
  simp [turnsWordSum]

/-- The inner loop consumes at most the remaining turns. -/
theorem packLoop_n_le (target : Int) :
    ∀ (rem : List Turn) (w : Nat) (b s : List String),
      (packLoop target rem w b s).1 ≤ rem.length := by
  intro rem
  induction rem with
  | nil => intro w b s; simp [packLoop]
  | cons t rest ih =>
    intro w b s
    simp only [packLoop]
    split
    · exact Nat.succ_le_succ (ih _ _ _)
    · exact Nat.zero_le _

/-- The inner loop stops only at the end of the sequence or at or above
the word target. -/
theorem packLoop_exit (target : Int) :
    ∀ (rem : List Turn) (w : Nat) (b s : List String),
      (packLoop target rem w b s).1 = rem.length ∨
        target ≤ ((packLoop target rem w b s).2.1 : Int) := by
  intro rem
  induction rem with
  | nil => intro w b s; left; simp [packLoop]
  | cons t rest ih =>
    intro w b s
    simp only [packLoop]
    split
    · rcases ih (w + wordCount t.text) (b ++ [renderTurnLine (pyStrip (t.speaker.getD "Narration")) t])
        (if s.contains (pyStrip (t.speaker.getD "Narration")) then s
         else s ++ [pyStrip (t.speaker.getD "Narration")]) with h | h
      · left; simpa using congrArg Nat.succ h
      · right; exact h
    · rename_i h
      right
      dsimp only
      omega

/-- The word count accumulated by the inner loop is the word sum of the
consumed turns. -/
theorem packLoop_words (target : Int) :
    ∀ (rem : List Turn) (w : Nat) (b s : List String),
      (packLoop target rem w b s).2.1 =
        w + turnsWordSum (rem.take (packLoop target rem w b s).1) := by
  intro rem
  induction rem with
  | nil => intro w b s; simp [packLoop, turnsWordSum]
  | cons t rest ih =>
    intro w b s
    simp only [packLoop]
    split
    · rw [ih]
      simp [turnsWordSum_cons]
      omega
    · simp [turnsWordSum]

/-- When the total word count is below the target, the inner loop consumes
the whole sequence. -/
theorem packLoop_all (target : Int) :
    ∀ (rem : List Turn) (w : Nat) (b s : List String),
      (w : Int) + (turnsWordSum rem : Int) < target →
      (packLoop target rem w b s).1 = rem.length := by
  intro rem
  induction rem with
  | nil => intro w b s _; simp [packLoop]
  | cons t rest ih =>
    intro w b s h
    have hcnt : turnsWordSum (t :: rest) = wordCount t.text + turnsWordSum rest :=
      turnsWordSum_cons t rest
    have hw : (w : Int) < target := by
      rw [hcnt] at h
      push_cast at h ⊢
      omega
    simp only [packLoop, if_pos hw]
    have := ih (w + wordCount t.text)
      (b ++ [renderTurnLine (pyStrip (t.speaker.getD "Narration")) t])
      (if s.contains (pyStrip (t.speaker.getD "Narration")) then s
       else s ++ [pyStrip (t.speaker.getD "Narration")])
      (by rw [hcnt] at h; push_cast at h ⊢; omega)
    simpa using congrArg Nat.succ this

/-- With a positive target the inner loop consumes at least one turn. -/
theorem packLoop_pos (target : Int) (rem : List Turn) (b s : List String)
    (ht : 1 ≤ target) (hr : rem ≠ []) : 1 ≤ (packLoop target rem 0 b s).1 := by
  cases rem with
  | nil => exact absurd rfl hr
  | cons t rest =>
    have hw : ((0 : Nat) : Int) < target := by omega
    simp only [packLoop, if_pos hw]
    omega

/-- If the loop returned a chunk list, each chunk is the chunk assembled
at its own recorded start index, and that index is in range. -/
theorem makeChunksLoop_mem (usable : List Turn) (t ov : Int) :
    ∀ (fuel i cid : Nat) (cs : List Chunk) (c : Chunk),
      makeChunksLoop usable t ov fuel i cid = some cs → c ∈ cs →
      c = chunkAt usable t c.start_i c.chunk_id ∧ c.start_i < usable.length := by
  intro fuel
  induction fuel with
  | zero =>
    intro i cid cs c hsome hc
    by_cases hi : i < usable.length
    · simp [makeChunksLoop, hi] at hsome
    · simp [makeChunksLoop, hi] at hsome
      subst hsome
      simp at hc
  | succ fuel ih =>
    intro i cid cs c hsome hc
    by_cases hi : i < usable.length
    · simp only [makeChunksLoop, if_pos hi] at hsome
      obtain ⟨cs', hrec, hcs⟩ := Option.map_eq_some'.mp hsome
      rw [← hcs] at hc
      rcases List.mem_cons.mp hc with hceq | hmem
      · subst hceq
        exact ⟨rfl, hi⟩
      · exact ih _ _ _ _ hrec hmem
    · simp only [makeChunksLoop, if_neg hi] at hsome
      cases hsome
      simp at hc

/-- Strict forward progress of the outer loop index, for a positive word
target or a positive overlap. -/
theorem makeChunks_index_progress (usable : List Turn) (t ov : Int) (i cid : Nat)
    (hi : i < usable.length) (h : 1 ≤ t ∨ 1 ≤ ov) :
    i + 1 ≤
      (if ov > 0 then
         (max (((i + (chunkAt usable t i cid).n_turns : Nat) : Int) - ov) ((i : Int) + 1)).toNat
       else i + (chunkAt usable t i cid).n_turns) := by
  by_cases hov : ov > 0
  · rw [if_pos hov]
    have hle : ((i : Int) + 1) ≤
        max (((i + (chunkAt usable t i cid).n_turns : Nat) : Int) - ov) ((i : Int) + 1) :=
      le_max_right _ _
    have := Int.toNat_le_toNat hle
    simpa using this
  · rw [if_neg hov]
    have ht : 1 ≤ t := by
      rcases h with h | h
      · exact h
      · omega
    have hne : usable.drop i ≠ [] := by
      intro hnil
      rw [List.drop_eq_nil_iff] at hnil
      omega
    have := packLoop_pos t (usable.drop i) [] [] ht hne
    have hn : 1 ≤ (chunkAt usable t i cid).n_turns := this
    omega

/-- A loop started at or past the end returns no further chunks. -/
theorem makeChunksLoop_at_end (usable : List Turn) (t ov : Int) (fuel i cid : Nat)
    (hi : ¬ i < usable.length) : makeChunksLoop usable t ov fuel i cid = some [] := by
  cases fuel <;> simp [makeChunksLoop, hi]

/-- With a positive target or positive overlap, `usable.length` fuel is
enough, and the emitted start indices increase strictly. -/
theorem makeChunksLoop_some_sorted (usable : List Turn) (t ov : Int) (h : 1 ≤ t ∨ 1 ≤ ov) :
    ∀ (fuel i cid : Nat), usable.length ≤ i + fuel →
      ∃ cs, makeChunksLoop usable t ov fuel i cid = some cs ∧
        (∀ c ∈ cs, i ≤ c.start_i) ∧ List.Chain' (· < ·) (cs.map Chunk.start_i) := by
  intro fuel
  induction fuel with
  | zero =>
    intro i cid hlen
    have hi : ¬ i < usable.length := by omega
    exact ⟨[], makeChunksLoop_at_end usable t ov 0 i cid hi, by simp, by simp⟩
  | succ fuel ih =>
    intro i cid hlen
    by_cases hi : i < usable.length
    · have hprog := makeChunks_index_progress usable t ov i cid hi h
      obtain ⟨cs', hrec, hge, hchain⟩ := ih
        (if ov > 0 then
           (max (((i + (chunkAt usable t i cid).n_turns : Nat) : Int) - ov) ((i : Int) + 1)).toNat
         else i + (chunkAt usable t i cid).n_turns) (cid + 1) (by omega)
      refine ⟨chunkAt usable t i cid :: cs', ?_, ?_, ?_⟩
      · simp only [makeChunksLoop, if_pos hi, hrec]
        rfl
      · intro c hc
        rcases List.mem_cons.mp hc with hceq | hmem
        · subst hceq; exact Nat.le_refl _
        · have := hge c hmem
          omega
      · rw [List.map_cons]
        rw [List.chain'_cons']
        constructor
        · intro b hb
          cases cs' with
          | nil => simp at hb
          | cons c0 rest =>
            simp only [List.map_cons, List.head?_cons, Option.mem_def, Option.some.injEq] at hb
            subst hb
            have := hge c0 (List.mem_cons_self c0 rest)
            show (chunkAt usable t i cid).start_i < c0.start_i
            have hstart : (chunkAt usable t i cid).start_i = i := rfl
            omega
        · exact hchain
    · exact ⟨[], makeChunksLoop_at_end usable t ov (fuel + 1) i cid hi, by simp, by simp⟩

/-- With `target_words ≤ 0` and `overlap_turns ≤ 0` on a nonempty usable
sequence, the outer loop never advances: whatever fuel it is given, it is
exhausted with the index still at 0. -/
theorem makeChunksLoop_stalled :
    ∀ (fuel cid : Nat),
      makeChunksLoop (usableTurns oneConvTurn false) 0 0 fuel 0 cid = none := by
  intro fuel
  induction fuel with
  | zero => intro cid; rfl
  | succ fuel ih =>
    intro cid
    show (makeChunksLoop (usableTurns oneConvTurn false) 0 0 fuel 0 (cid + 1)).map _ = none
    rw [ih (cid + 1)]
    rfl

/-- C5 (counterexample): with `target_words = 0` and `overlap_turns = 0`
and one usable conversation turn, the chunking loop never terminates (no
amount of fuel makes it reach the end of the sequence), so `make_chunks`
does not terminate for every configuration. -/
theorem c5_counterexample :
    (¬ ∃ fuel : Nat,
        (makeChunksLoop (usableTurns oneConvTurn false) 0 0 fuel 0 0).isSome = true) ∧
      make_chunks oneConvTurn false 0 0 = none := by
  constructor
  · rintro ⟨fuel, hf⟩
    rw [makeChunksLoop_stalled fuel 0] at hf
    simp at hf
  · rfl

/-- C5 (amended): for every labeled turn sequence and every configuration
with a positive word target or a positive overlap, `make_chunks`
terminates and the start indices of consecutive chunks increase strictly.
(With `target_words ≤ 0` and `overlap_turns ≤ 0` the loop diverges on any
nonempty filtered sequence.) -/
theorem c5_amended (turns : List Turn) (ii : Bool) (tw ov : Int)
    (h : 1 ≤ tw ∨ 1 ≤ ov) :
    ∃ cs, make_chunks turns ii tw ov = some cs ∧
      List.Chain' (· < ·) (cs.map Chunk.start_i) := by
  unfold make_chunks
  by_cases he : (usableTurns turns ii).isEmpty
  · exact ⟨[], by simp [he], by simp⟩
  · obtain ⟨cs, hsome, _, hchain⟩ :=
      makeChunksLoop_some_sorted (usableTurns turns ii) tw ov h
        (usableTurns turns ii).length 0 0 (by omega)
    exact ⟨cs, by simp [he, hsome], hchain⟩

/-- Witness for C5 at the four-turn scenario. -/
theorem c5_amended_witness :
    ∃ cs, make_chunks fourSixWordTurns false 10 1 = some cs ∧
      List.Chain' (· < ·) (cs.map Chunk.start_i) :=
  c5_amended fourSixWordTurns false 10 1 (Or.inl (by decide))

/-- C2 (counterexample): two one-word conversation turns with target 100
and overlap 1 give two chunks; the first covers both turns (indices 0–1),
is not the final chunk, and its word count 2 is far below the target. -/
theorem c2_counterexample :
    (make_chunks twoOneWordTurns false 100 1).map
        (fun cs => cs.map (fun c => (c.start_i, c.n_turns))) = some [(0, 2), (1, 1)] ∧
      turnsWordSum (((usableTurns twoOneWordTurns false).drop 0).take 2) = 2 ∧
      ¬ ((100 : Int) ≤ (2 : Int)) := by
  refine ⟨rfl, by decide, by decide⟩

/-- C2 (amended): every chunk whose contributing turns do not extend to
the end of the filtered sequence has word count at least the target.  (A
chunk that reaches the end can be below the target even when it is not the
final chunk, because the overlap rewind can emit further chunks after
it.) -/
theorem c2_amended (turns : List Turn) (ii : Bool) (tw ov : Int) (cs : List Chunk)
    (c : Chunk) (hm : make_chunks turns ii tw ov = some cs) (hc : c ∈ cs)
    (hend : c.start_i + c.n_turns < (usableTurns turns ii).length) :
    tw ≤ (turnsWordSum (((usableTurns turns ii).drop c.start_i).take c.n_turns) : Int) := by
  unfold make_chunks at hm
  by_cases he : (usableTurns turns ii).isEmpty
  · rw [if_pos he] at hm
    cases hm
    simp at hc
  · rw [if_neg he] at hm
    obtain ⟨hceq, hlt⟩ := makeChunksLoop_mem (usableTurns turns ii) tw ov _ _ _ cs c hm hc
    have hn : c.n_turns = (packLoop tw ((usableTurns turns ii).drop c.start_i) 0 [] []).1 := by
      conv_lhs => rw [hceq]
      rfl
    have hrem : ((usableTurns turns ii).drop c.start_i).length =
        (usableTurns turns ii).length - c.start_i := List.length_drop _ _
    rcases packLoop_exit tw ((usableTurns turns ii).drop c.start_i) 0 [] [] with hall | hge
    · rw [← hn] at hall
      omega
    · have hwords := packLoop_words tw ((usableTurns turns ii).drop c.start_i) 0 [] []
      rw [← hn] at hwords
      rw [hwords] at hge
      simpa using hge

/-- Witness for C2: the first chunk of the four-six-word-turn scenario
stops after two turns (12 words ≥ 10) strictly before the end. -/
theorem c2_amended_witness :
    (10 : Int) ≤ (turnsWordSum (((usableTurns fourSixWordTurns false).drop
        (chunkAt (usableTurns fourSixWordTurns false) 10 0 0).start_i).take
        (chunkAt (usableTurns fourSixWordTurns false) 10 0 0).n_turns) : Int) :=
  c2_amended fourSixWordTurns false 10 1 ((make_chunks fourSixWordTurns false 10 1).getD [])
    (chunkAt (usableTurns fourSixWordTurns false) 10 0 0)
    rfl (List.mem_cons_self _ _) (by decide)

/-- C1 (amended): an empty filtered sequence yields zero chunks without
failing, for every configuration; and when the filtered sequence is
nonempty, its total word count is below the target, and no overlap is
configured (`overlap_turns ≤ 0`), exactly one chunk is emitted and it
contains every usable turn.  (With a positive overlap the rewind re-enters
the loop and more chunks follow, see the counterexample.) -/
theorem c1_amended (turns : List Turn) (ii : Bool) (tw ov : Int) :
    (usableTurns turns ii = [] → make_chunks turns ii tw ov = some []) ∧
      (usableTurns turns ii ≠ [] →
        (turnsWordSum (usableTurns turns ii) : Int) < tw → ov ≤ 0 →
        ∃ c, make_chunks turns ii tw ov = some [c] ∧ c.start_i = 0 ∧
          c.n_turns = (usableTurns turns ii).length) := by
  constructor
  · exact fun h => make_chunks_of_usable_nil turns ii tw ov h
  · intro hne hlt hov
    set usable := usableTurns turns ii with husable
    obtain ⟨k, hk⟩ : ∃ k, usable.length = k + 1 := by
      cases hu : usable with
      | nil => exact absurd hu hne
      | cons a l => exact ⟨l.length, by simp [hu]⟩
    have hall : (packLoop tw (usable.drop 0) 0 [] []).1 = usable.length := by
      rw [List.drop_zero]
      exact packLoop_all tw usable 0 [] [] (by simpa using hlt)
    have hemp : usable.isEmpty = false := by
      cases hu : usable with
      | nil => exact absurd hu hne
      | cons a l => rfl
    refine ⟨chunkAt usable tw 0 0, ?_, rfl, ?_⟩
    · unfold make_chunks
      rw [← husable]
      dsimp only
      rw [hemp]
      simp only [Bool.false_eq_true, if_false]
      rw [hk]
      simp only [makeChunksLoop, Nat.zero_lt_succ, if_pos (Nat.zero_lt_succ k)]
      have hn : (chunkAt usable tw 0 0).n_turns = usable.length := hall
      have hov' : ¬ ov > 0 := by omega
      rw [if_neg hov']
      rw [hn]
      rw [if_pos (show 0 < usable.length by omega)]
      rw [makeChunksLoop_at_end usable tw ov k (0 + usable.length) (0 + 1) (by omega)]
      rfl
    · exact hall

/-- Witness for C1: two one-word turns, target 100, overlap 0 — one chunk
holding both turns. -/
theorem c1_amended_witness :
    ∃ c, make_chunks twoOneWordTurns false 100 0 = some [c] ∧ c.start_i = 0 ∧
      c.n_turns = (usableTurns twoOneWordTurns false).length :=
  (c1_amended twoOneWordTurns false 100 0).2 (by decide) (by decide) (by decide)

/-! ### C10: flags are detected on the redacted segments -/

/-- Any flag attached to a freshly created turn (with redaction on) was
detected in the redacted stripped remainder. -/
theorem newTurn_flags (spk : Option String) (cap : TsCapture) (fl : PiiFlag)
    (h : fl ∈ (newTurn spk cap true).pii_flags.getD []) :
    fl ∈ detect_pii (redact_pii (pyStrip cap.rest)) := by
  unfold newTurn at h
  dsimp only at h
  by_cases hr : pyStrip cap.rest = ""
  · simp [hr] at h
  · by_cases hfs : detect_pii (redact_pii (pyStrip cap.rest)) = []
    · simp [hr, hfs] at h
    · by_cases hr2 : redact_pii (pyStrip cap.rest) = ""
      · simp [hr, hr2] at h
      · simpa [hr, hr2, hfs] using h


/-- Flags of the flushed prefix come from the previous state. -/
theorem flushCur_flags (ts : List Turn) (cur : Option Turn) (t : Turn) (fl : PiiFlag)
    (ht : t ∈ flushCur ts cur) (hmem : fl ∈ t.pii_flags.getD []) :
    (∃ t' ∈ ts, fl ∈ t'.pii_flags.getD []) ∨
      (∃ c, cur = some c ∧ fl ∈ c.pii_flags.getD []) := by
  cases cur with
  | none => exact Or.inl ⟨t, ht, hmem⟩
  | some c =>
    unfold flushCur at ht
    rcases List.mem_append.mp ht with hmem' | hmem'
    · exact Or.inl ⟨t, hmem', hmem⟩
    · refine Or.inr ⟨c, rfl, ?_⟩
      have hteq : t = { c with text := pyStrip c.text } := by simpa using hmem'
      rw [hteq] at hmem
      simpa using hmem

/-- Flags of the continuation-merged current turn come from the previous
current turn or from the redacted stripped line. -/
theorem contTurn_flags (c0 : Turn) (l : String) (fl : PiiFlag) (hb : ¬ pyStrip l = "")
    (hmem : fl ∈ (let cont := pyStrip l
      let cont2 := if true && cont ≠ "" then redact_pii cont else cont
      if cont2 ≠ "" then
        let fs := detect_pii cont2
        if fs ≠ [] then some (c0.pii_flags.getD [] ++ fs) else c0.pii_flags
      else c0.pii_flags).getD []) :
    fl ∈ c0.pii_flags.getD [] ∨ fl ∈ detect_pii (redact_pii (pyStrip l)) := by
  dsimp only at hmem
  rw [if_pos (by simp [hb] : (true && decide (pyStrip l ≠ "")) = true)] at hmem
  by_cases hr2 : redact_pii (pyStrip l) = ""
  · rw [if_neg (by simp [hr2])] at hmem
    exact Or.inl hmem
  · rw [if_pos (by simp [hr2])] at hmem
    by_cases hfs : detect_pii (redact_pii (pyStrip l)) = []
    · rw [if_neg (by simp [hfs])] at hmem
      exact Or.inl hmem
    · rw [if_pos (by simp [hfs])] at hmem
      rw [Option.getD_some] at hmem
      rcases List.mem_append.mp hmem with h | h
      · exact Or.inl h
      · exact Or.inr h

/-- One parsing step (with redaction on) only adds flags that `detect_pii`
finds in the redacted segment contributed by the line. -/
theorem parseStep_flags (ts : List Turn) (cur : Option Turn) (l : String) (fl : PiiFlag)
    (h : stateFlagged (parseStep true (ts, cur) l) fl) :
    stateFlagged (ts, cur) fl ∨
      ∃ s, lineSegment l = some s ∧ fl ∈ detect_pii (redact_pii s) := by
  by_cases hb : pyStrip l = ""
  · left
    unfold parseStep at h
    simp only [hb, beq_self_eq_true, if_true] at h
    cases cur with
    | none => exact h
    | some c =>
      dsimp only at h
      split at h
      · rcases h with h | ⟨c', hc', hmem⟩
        · exact Or.inl h
        · cases hc'
          exact Or.inr ⟨c, rfl, by simpa using hmem⟩
      · exact h
  · have hbne : (pyStrip l == "") = false := by simp [hb]
    unfold parseStep at h
    simp only [hbne, Bool.false_eq_true, if_false] at h
    cases h1 : matchSpeakerTs l with
    | some v =>
      obtain ⟨spkRaw, cap⟩ := v
      rw [h1] at h
      dsimp only at h
      rcases h with ⟨t, ht, hmem⟩ | ⟨c', hc', hmem⟩
      · exact Or.inl (flushCur_flags ts cur t fl ht hmem)
      · cases hc'
        refine Or.inr ⟨pyStrip cap.rest, ?_, newTurn_flags _ cap fl hmem⟩
        unfold lineSegment
        simp [hb, h1]
    | none =>
      cases h2 : matchTsOnly l with
      | some cap =>
        rw [h1, h2] at h
        dsimp only at h
        rcases h with ⟨t, ht, hmem⟩ | ⟨c', hc', hmem⟩
        · exact Or.inl (flushCur_flags ts cur t fl ht hmem)
        · cases hc'
          refine Or.inr ⟨pyStrip cap.rest, ?_, newTurn_flags none cap fl hmem⟩
          unfold lineSegment
          simp [hb, h1, h2]
      | none =>
        rw [h1, h2] at h
        dsimp only at h
        rcases h with ⟨t, ht, hmem⟩ | ⟨c', hc', hmem⟩
        · exact Or.inl (Or.inl ⟨t, ht, hmem⟩)
        · cases hc'
          have hsplit := contTurn_flags (cur.getD { speaker := none, t := 0, text := "" })
            l fl hb hmem
          rcases hsplit with hold | hnew
          · cases cur with
            | none => simp at hold
            | some c => exact Or.inl (Or.inr ⟨c, rfl, hold⟩)
          · refine Or.inr ⟨pyStrip l, ?_, hnew⟩
            unfold lineSegment
            simp [hb, h1, h2]

/-- The loop invariant over a list of lines: a flag reachable at the end
was present at the start or is detected in the redacted segment of some
processed line. -/
theorem parse_flags_invariant (fl : PiiFlag) :
    ∀ (lines : List String) (ts : List Turn) (cur : Option Turn),
      stateFlagged (lines.foldl (parseStep true) (ts, cur)) fl →
      stateFlagged (ts, cur) fl ∨
        ∃ s ∈ lines.filterMap lineSegment, fl ∈ detect_pii (redact_pii s) := by
  intro lines
  induction lines with
  | nil => intro ts cur h; exact Or.inl h
  | cons l rest ih =>
    intro ts cur h
    rw [List.foldl_cons] at h
    rcases hstep : parseStep true (ts, cur) l with ⟨ts', cur'⟩
    rw [hstep] at h
    rcases ih ts' cur' h with hfl | ⟨s, hs, hdet⟩
    · rw [← hstep] at hfl
      rcases parseStep_flags ts cur l fl hfl with hfl' | ⟨s, hseg, hdet⟩
      · exact Or.inl hfl'
      · refine Or.inr ⟨s, ?_, hdet⟩
        rw [List.filterMap_cons, hseg]
        exact List.mem_cons_self _ _
    · refine Or.inr ⟨s, ?_, hdet⟩
      rw [List.filterMap_cons]
      cases lineSegment l with
      | none => exact hs
      | some s0 => exact List.mem_cons_of_mem _ hs

/-- C10 (amended): with redaction enabled, every recorded PII flag of
every parsed turn is one that `detect_pii` finds in the redacted stripped
segment of some input line — the flags describe only PII still present in
the redacted text.  (A value whose detected occurrence was replaced can
still be recorded when an equal value is again detectable in the redacted
text, see the counterexample.) -/
theorem c10_amended (lines : List String) (t : Turn) (fl : PiiFlag)
    (ht : t ∈ parse_transcript lines true)
    (hf : fl ∈ t.pii_flags.getD []) :
    ∃ s ∈ lines.filterMap lineSegment, fl ∈ detect_pii (redact_pii s) := by
  unfold parse_transcript at ht
  rcases hst : lines.foldl (parseStep true) ([], none) with ⟨ts, cur⟩
  rw [hst] at ht
  have hfl : stateFlagged (ts, cur) fl := by
    dsimp only at ht
    exact flushCur_flags ts cur t fl ht hf
  have := parse_flags_invariant fl lines [] none (by rw [hst]; exact hfl)
  rcases this with hst0 | hgood
  · rcases hst0 with ⟨t0, ht0, _⟩ | ⟨c0, hc0, _⟩
    · simp at ht0
    · simp at hc0
  · exact hgood

/-- Witness for C10: on the exposing input the parsed turn carries the
flag `{email, a@b.cc}`, and that flag is indeed detected in the redacted
segment. -/
theorem c10_amended_witness :
    ∃ s ∈ [piiRecordedLine].filterMap lineSegment,
      ({ type := "email", value := "a@b.cc" } : PiiFlag) ∈ detect_pii (redact_pii s) :=
  c10_amended [piiRecordedLine]
    ((parse_transcript [piiRecordedLine] true).getD 0 defaultTurn)
    { type := "email", value := "a@b.cc" }
    (by decide) (by decide)
